import Mathlib

/-!
# Verification of the `libsyntax` interner (`src/libsyntax/util/interner.rs`)

A shallow embedding of the two interning tables of the repository:

* `Interner T` models `Interner<T>`: a deduplicating value interner built from
  a dedup map (`HashMap<T, Name>`, modelled as an association list — keys are
  inserted only when absent, so association-list lookup agrees with the hash
  map) and a dense store (`Vec<T>`, modelled as a `List T`).
* `StrInterner` models `StrInterner`: the string specialisation, whose stored
  `Rc<String>` values are modelled by their text (`String`); reference-counted
  sharing is unobservable at the value level.

Handles (`Name`) wrap a `u32`; every entry-creating operation computes
`Name(len as u32)`, so the handle's integer is modelled as
`length % 2 ^ 32` — the `as u32` cast truncates.  A panic (out-of-range
indexing in `get` / `gensym_copy`) is modelled by `Option`: `none` is the
fatal error.
-/

set_option autoImplicit false

namespace InternerModel

/-- Association-list lookup, modelling `HashMap::get`.  The interners insert a
key only when it is absent, so no key is ever shadowed and this lookup agrees
with the hash map. -/
def mapGet {T : Type} [DecidableEq T] : List (T × Nat) → T → Option Nat
  | [], _ => none
  | (k, i) :: rest, v => if k = v then some i else mapGet rest v

/-- The state of `Interner<T>`: the dedup map and the dense store.  `RefCell`
only provides interior mutability; the pure model passes states explicitly. -/
structure Interner (T : Type) where
  map : List (T × Nat)
  vect : List T
  deriving DecidableEq

namespace Interner

variable {T : Type} [DecidableEq T]

/-- `Interner::new`: both stores start empty. -/
def new : Interner T := ⟨[], []⟩

/-- `Interner::intern`: return the handle of an equal value if the map holds
one; otherwise mint `Name(vect.len() as u32)`, record the pair in the map and
push the value on the dense store.  Returns the handle and the new state. -/
def intern (s : Interner T) (val : T) : Nat × Interner T :=
  match mapGet s.map val with
  | some idx => (idx, s)
  | none =>
    let newIdx := s.vect.length % 2 ^ 32
    (newIdx, ⟨(val, newIdx) :: s.map, s.vect ++ [val]⟩)

/-- `Interner::gensym`: mint `Name(vect.len() as u32)` and push the value,
deliberately leaving the map untouched ("leave out of .map to avoid
colliding"). -/
def gensym (s : Interner T) (val : T) : Nat × Interner T :=
  (s.vect.length % 2 ^ 32, ⟨s.map, s.vect ++ [val]⟩)

/-- `Interner::get`: index the dense store; `none` models the panic on an
out-of-range handle. -/
def get (s : Interner T) (idx : Nat) : Option T :=
  s.vect[idx]?

/-- `Interner::len`: length of the dense store. -/
def len (s : Interner T) : Nat :=
  s.vect.length

/-- `Interner::find`: dedup-map lookup only; gensym entries are invisible. -/
def find (s : Interner T) (val : T) : Option Nat :=
  mapGet s.map val

/-- `Interner::clear`: both stores are replaced by empty ones. -/
def clear (_s : Interner T) : Interner T := new

/-- `Interner::prefill`: deduplicating-insert each initial value in order into
a fresh interner. -/
def prefill (init : List T) : Interner T :=
  init.foldl (fun s v => (s.intern v).2) new

end Interner

/-- A trace operation on `Interner<T>` within one epoch (between clears): the
two handle-returning mutators. -/
inductive Op (T : Type) where
  | intern (v : T)
  | gensym (v : T)
  deriving DecidableEq

namespace Op

/-- The value argument passed to an operation. -/
def val {T : Type} : Op T → T
  | .intern v => v
  | .gensym v => v

end Op

namespace Interner

variable {T : Type} [DecidableEq T]

/-- The state after one operation. -/
def applyOp (s : Interner T) : Op T → Interner T
  | .intern v => (s.intern v).2
  | .gensym v => (s.gensym v).2

/-- The handle returned by one operation. -/
def retOp (s : Interner T) : Op T → Nat
  | .intern v => (s.intern v).1
  | .gensym v => (s.gensym v).1

/-- Run a list of operations left to right. -/
def run (s : Interner T) : List (Op T) → Interner T
  | [] => s
  | op :: rest => (s.applyOp op).run rest

end Interner

/-- The state of `StrInterner`; stored `Rc<String>` values are modelled by
their text. -/
structure StrInterner where
  map : List (String × Nat)
  vect : List String
  deriving DecidableEq

namespace StrInterner

/-- `StrInterner::new`. -/
def new : StrInterner := ⟨[], []⟩

/-- `StrInterner::len`. -/
def len (s : StrInterner) : Nat :=
  s.vect.length

/-- `StrInterner::intern`: like the generic one, but the fresh handle is
computed from `self.len()` (the same number as the store's length). -/
def intern (s : StrInterner) (val : String) : Nat × StrInterner :=
  match mapGet s.map val with
  | some idx => (idx, s)
  | none =>
    let newIdx := s.len % 2 ^ 32
    (newIdx, ⟨(val, newIdx) :: s.map, s.vect ++ [val]⟩)

/-- `StrInterner::gensym`. -/
def gensym (s : StrInterner) (val : String) : Nat × StrInterner :=
  (s.len % 2 ^ 32, ⟨s.map, s.vect ++ [val]⟩)

/-- `StrInterner::gensym_copy`: mint a fresh handle whose entry is the value
stored at an existing handle; `none` models the panic when `idx` is out of
range.  The map is again left untouched. -/
def gensym_copy (s : StrInterner) (idx : Nat) : Option (Nat × StrInterner) :=
  match s.vect[idx]? with
  | none => none
  | some existing => some (s.len % 2 ^ 32, ⟨s.map, s.vect ++ [existing]⟩)

/-- `StrInterner::get`. -/
def get (s : StrInterner) (idx : Nat) : Option String :=
  s.vect[idx]?

/-- `StrInterner::find`. -/
def find (s : StrInterner) (val : String) : Option Nat :=
  mapGet s.map val

/-- `StrInterner::clear`. -/
def clear (_s : StrInterner) : StrInterner := new

/-- `StrInterner::prefill`. -/
def prefill (init : List String) : StrInterner :=
  init.foldl (fun s v => (s.intern v).2) new

/-- `StrInterner::reset`: adopt the stores of another instance. -/
def reset (_s : StrInterner) (other : StrInterner) : StrInterner := other

end StrInterner

end InternerModel

/-! ## Basic operation lemmas -/

namespace InternerModel

namespace Interner

variable {T : Type} [DecidableEq T]

theorem intern_hit (s : Interner T) (v : T) (i : Nat) (h : mapGet s.map v = some i) :
    s.intern v = (i, s) := by
  unfold intern
  rw [h]

theorem intern_miss (s : Interner T) (v : T) (h : mapGet s.map v = none) :
    s.intern v = (s.vect.length % 2 ^ 32,
      ⟨(v, s.vect.length % 2 ^ 32) :: s.map, s.vect ++ [v]⟩) := by
  unfold intern
  rw [h]

theorem applyOp_vect_extends (s : Interner T) (op : Op T) :
    ∃ t, (s.applyOp op).vect = s.vect ++ t := by
  cases op with
  | intern v =>
    cases h : mapGet s.map v with
    | none => exact ⟨[v], by simp [applyOp, intern_miss s v h]⟩
    | some i => exact ⟨[], by simp [applyOp, intern_hit s v i h]⟩
  | gensym v => exact ⟨[v], rfl⟩

theorem find_eq (s : Interner T) (v : T) : s.find v = mapGet s.map v := rfl

theorem run_nil (s : Interner T) : s.run [] = s := rfl

theorem run_cons (s : Interner T) (op : Op T) (rest : List (Op T)) :
    s.run (op :: rest) = (s.applyOp op).run rest := rfl

theorem applyOp_intern (s : Interner T) (v : T) :
    s.applyOp (.intern v) = (s.intern v).2 := rfl

theorem applyOp_gensym (s : Interner T) (v : T) :
    s.applyOp (.gensym v) = (s.gensym v).2 := rfl

theorem run_vect_extends (s : Interner T) (ops : List (Op T)) :
    ∃ t, (s.run ops).vect = s.vect ++ t := by
  induction ops generalizing s with
  | nil => exact ⟨[], by simp [run]⟩
  | cons op rest ih =>
    obtain ⟨t1, h1⟩ := applyOp_vect_extends s op
    obtain ⟨t2, h2⟩ := ih (s.applyOp op)
    exact ⟨t1 ++ t2, by simp [run, h2, h1]⟩

theorem len_le_applyOp (s : Interner T) (op : Op T) :
    s.vect.length ≤ (s.applyOp op).vect.length := by
  obtain ⟨t, ht⟩ := applyOp_vect_extends s op
  simp [ht]

theorem len_le_run (s : Interner T) (ops : List (Op T)) :
    s.vect.length ≤ (s.run ops).vect.length := by
  obtain ⟨t, ht⟩ := run_vect_extends s ops
  simp [ht]

theorem get_applyOp_stable (s : Interner T) (op : Op T) (i : Nat)
    (h : i < s.vect.length) : (s.applyOp op).get i = s.get i := by
  obtain ⟨t, ht⟩ := applyOp_vect_extends s op
  simp [get, ht, List.getElem?_append_left h]

theorem get_run_stable (s : Interner T) (ops : List (Op T)) (i : Nat)
    (h : i < s.vect.length) : (s.run ops).get i = s.get i := by
  obtain ⟨t, ht⟩ := run_vect_extends s ops
  simp [get, ht, List.getElem?_append_left h]

theorem run_append (s : Interner T) (l1 l2 : List (Op T)) :
    s.run (l1 ++ l2) = (s.run l1).run l2 := by
  induction l1 generalizing s with
  | nil => simp [run]
  | cons op rest ih => simp [run, ih]

end Interner

end InternerModel

/-! ## Invariants of reachable states -/

namespace InternerModel

namespace Interner

variable {T : Type} [DecidableEq T]

theorem mapGet_cons (k : T) (i : Nat) (m : List (T × Nat)) (v : T) :
    mapGet ((k, i) :: m) v = if k = v then some i else mapGet m v := rfl

theorem mapGet_cons_some {k : T} {i : Nat} {m : List (T × Nat)} {v : T} {j : Nat}
    (h : mapGet ((k, i) :: m) v = some j) :
    (k = v ∧ i = j) ∨ (k ≠ v ∧ mapGet m v = some j) := by
  rw [mapGet_cons] at h
  by_cases hkv : k = v
  · rw [if_pos hkv] at h
    exact Or.inl ⟨hkv, Option.some.inj h⟩
  · rw [if_neg hkv] at h
    exact Or.inr ⟨hkv, h⟩

/-- Every handle recorded in the dedup map is a position of the dense store. -/
def InvRange (s : Interner T) : Prop :=
  ∀ v i, mapGet s.map v = some i → i < s.vect.length

/-- Lockstep: every handle recorded in the dedup map points at an equal value
in the dense store. -/
def Wf (s : Interner T) : Prop :=
  ∀ v i, mapGet s.map v = some i → s.vect[i]? = some v

theorem Wf.invRange {s : Interner T} (hs : Wf s) : InvRange s := by
  intro v i h
  exact (List.getElem?_eq_some.mp (hs v i h)).1

theorem invRange_new : InvRange (new : Interner T) := by
  intro v i h
  simp [new, mapGet] at h

theorem invRange_applyOp {s : Interner T} (hs : InvRange s) (op : Op T) :
    InvRange (s.applyOp op) := by
  cases op with
  | intern v =>
    cases h : mapGet s.map v with
    | some i =>
      simpa [applyOp, intern_hit s v i h] using hs
    | none =>
      intro w j hw
      simp only [applyOp, intern_miss s v h] at hw
      simp only [applyOp, intern_miss s v h, List.length_append, List.length_cons,
        List.length_nil]
      rcases mapGet_cons_some hw with ⟨-, rfl⟩ | ⟨-, hw⟩
      · have := Nat.mod_le s.vect.length (2 ^ 32)
        omega
      · have := hs w j hw
        omega
  | gensym v =>
    intro w j hw
    have := hs w j hw
    simp [applyOp, gensym] at hw ⊢
    exact Nat.lt_succ_of_lt (hs w j hw)

theorem invRange_run {s : Interner T} (hs : InvRange s) (ops : List (Op T)) :
    InvRange (s.run ops) := by
  induction ops generalizing s with
  | nil => exact hs
  | cons op rest ih => exact ih (invRange_applyOp hs op)

theorem retOp_lt_len {s : Interner T} (hs : InvRange s) (op : Op T) :
    s.retOp op < (s.applyOp op).vect.length := by
  cases op with
  | intern v =>
    cases h : mapGet s.map v with
    | some i =>
      simp [retOp, applyOp, intern_hit s v i h]
      exact hs v i h
    | none =>
      simp [retOp, applyOp, intern_miss s v h]
      have := Nat.mod_le s.vect.length (2 ^ 32)
      omega
  | gensym v =>
    simp [retOp, applyOp, gensym]
    have := Nat.mod_le s.vect.length (2 ^ 32)
    omega

theorem wf_new : Wf (new : Interner T) := by
  intro v i h
  simp [new, mapGet] at h

theorem wf_applyOp {s : Interner T} (hs : Wf s) (op : Op T)
    (hlen : (s.applyOp op).vect.length ≤ 2 ^ 32) : Wf (s.applyOp op) := by
  cases op with
  | intern v =>
    cases h : mapGet s.map v with
    | some i => simpa [applyOp, intern_hit s v i h] using hs
    | none =>
      have hlt : s.vect.length < 2 ^ 32 := by
        simp [applyOp, intern_miss s v h] at hlen
        omega
      intro w j hw
      simp only [applyOp, intern_miss s v h] at hw ⊢
      rcases mapGet_cons_some hw with ⟨rfl, rfl⟩ | ⟨-, hw⟩
      · rw [Nat.mod_eq_of_lt hlt]
        exact List.getElem?_concat_length s.vect v
      · have hj := hs w j hw
        rw [List.getElem?_append_left (List.getElem?_eq_some.mp hj).1]
        exact hj
  | gensym v =>
    intro w j hw
    simp [applyOp, gensym] at hw ⊢
    have hj := hs w j hw
    rw [List.getElem?_append_left (List.getElem?_eq_some.mp hj).1]
    exact hj

theorem wf_run {s : Interner T} (hs : Wf s) (ops : List (Op T))
    (hlen : (s.run ops).vect.length ≤ 2 ^ 32) : Wf (s.run ops) := by
  induction ops generalizing s with
  | nil => exact hs
  | cons op rest ih =>
    have hstep : (s.applyOp op).vect.length ≤ 2 ^ 32 :=
      le_trans (len_le_run (s.applyOp op) rest) (by simpa [run] using hlen)
    exact ih (wf_applyOp hs op hstep) (by simpa [run] using hlen)

end Interner

end InternerModel

/-! ## Dedup-map evolution along traces -/

namespace InternerModel

namespace Interner

variable {T : Type} [DecidableEq T]

theorem mapGet_applyOp_of_some {s : Interner T} {v : T} {h : Nat} (op : Op T)
    (hm : mapGet s.map v = some h) : mapGet (s.applyOp op).map v = some h := by
  cases op with
  | intern w =>
    cases hw : mapGet s.map w with
    | some j => simpa [applyOp, intern_hit s w j hw] using hm
    | none =>
      simp only [applyOp, intern_miss s w hw, mapGet_cons]
      rw [if_neg]
      · exact hm
      · intro hwe
        rw [hwe, hm] at hw
        cases hw
  | gensym w => simpa [applyOp, gensym] using hm

theorem mapGet_run_of_some {s : Interner T} {v : T} {h : Nat} (ops : List (Op T))
    (hm : mapGet s.map v = some h) : mapGet (s.run ops).map v = some h := by
  induction ops generalizing s with
  | nil => exact hm
  | cons op rest ih => exact ih (mapGet_applyOp_of_some op hm)

/-- Along a wrap-free trace, any map entry either predates the trace or its
handle is at least the trace's starting length. -/
theorem mapGet_run_lower {s : Interner T} (ops : List (Op T)) {v : T} {h : Nat}
    (hlen : (s.run ops).vect.length ≤ 2 ^ 32)
    (hm : mapGet (s.run ops).map v = some h) :
    mapGet s.map v = some h ∨ s.vect.length ≤ h := by
  induction ops generalizing s with
  | nil => exact Or.inl hm
  | cons op rest ih =>
    have hlen' : (s.run (op :: rest)).vect.length ≤ 2 ^ 32 := hlen
    rw [show s.run (op :: rest) = (s.applyOp op).run rest from rfl] at hm hlen'
    rcases ih hlen' hm with hm' | hge
    · cases op with
      | intern w =>
        cases hw : mapGet s.map w with
        | some j =>
          rw [applyOp, intern_hit s w j hw] at hm'
          exact Or.inl hm'
        | none =>
          rw [applyOp, intern_miss s w hw] at hm'
          rcases mapGet_cons_some hm' with ⟨rfl, rfl⟩ | ⟨-, hm''⟩
          · right
            have hle := len_le_run (s.applyOp (Op.intern w)) rest
            have hlen2 : (s.applyOp (Op.intern w)).vect.length ≤ 2 ^ 32 :=
              le_trans hle hlen'
            rw [applyOp, intern_miss s w hw] at hlen2
            simp at hlen2
            omega
          · exact Or.inl hm''
      | gensym w =>
        rw [applyOp] at hm'
        exact Or.inl hm'
    · right
      have := len_le_applyOp s op
      omega

/-- The number of entry-creating events in a trace: every gensym, plus every
deduplicating insert whose value is not yet in the map. -/
def mintCount (s : Interner T) : List (Op T) → Nat
  | [] => 0
  | .intern v :: rest =>
    (if mapGet s.map v = none then 1 else 0) + mintCount (s.applyOp (.intern v)) rest
  | .gensym v :: rest => 1 + mintCount (s.applyOp (.gensym v)) rest

theorem len_run_eq_mintCount (s : Interner T) (ops : List (Op T)) :
    (s.run ops).vect.length = s.vect.length + mintCount s ops := by
  induction ops generalizing s with
  | nil => simp [run, mintCount]
  | cons op rest ih =>
    cases op with
    | intern v =>
      cases hw : mapGet s.map v with
      | some j =>
        rw [show s.run (.intern v :: rest) = (s.applyOp (.intern v)).run rest from rfl,
          ih, mintCount, hw]
        simp [applyOp, intern_hit s v j hw]
      | none =>
        rw [show s.run (.intern v :: rest) = (s.applyOp (.intern v)).run rest from rfl,
          ih, mintCount, hw]
        simp [applyOp, intern_miss s v hw]
        omega
    | gensym v =>
      rw [show s.run (.gensym v :: rest) = (s.applyOp (.gensym v)).run rest from rfl,
        ih, mintCount]
      simp [applyOp, gensym]
      omega

theorem mapGet_cons_iff (k : T) (i : Nat) (m : List (T × Nat)) (v : T) (j : Nat) :
    mapGet ((k, i) :: m) v = some j ↔
      ((k = v ∧ i = j) ∨ (k ≠ v ∧ mapGet m v = some j)) := by
  rw [mapGet_cons]
  by_cases hkv : k = v
  · simp [hkv]
  · simp [hkv]

/-- The (value, handle) pairs created by the deduplicating insert path of a
trace. -/
def internPairs (s : Interner T) : List (Op T) → List (T × Nat)
  | [] => []
  | .intern v :: rest =>
    (if mapGet s.map v = none then [(v, s.vect.length % 2 ^ 32)] else []) ++
      internPairs (s.applyOp (.intern v)) rest
  | .gensym v :: rest => internPairs (s.applyOp (.gensym v)) rest

theorem internPairs_intern_miss (s : Interner T) (v : T) (rest : List (Op T))
    (h : mapGet s.map v = none) :
    internPairs s (.intern v :: rest) =
      (v, s.vect.length % 2 ^ 32) :: internPairs (s.applyOp (.intern v)) rest := by
  simp [internPairs, h]

theorem internPairs_intern_hit (s : Interner T) (v : T) (rest : List (Op T)) (i : Nat)
    (h : mapGet s.map v = some i) :
    internPairs s (.intern v :: rest) = internPairs (s.applyOp (.intern v)) rest := by
  simp [internPairs, h]

theorem internPairs_gensym (s : Interner T) (v : T) (rest : List (Op T)) :
    internPairs s (.gensym v :: rest) = internPairs (s.applyOp (.gensym v)) rest := rfl

theorem mapGet_run_iff_internPairs (s : Interner T) (ops : List (Op T)) (v : T) (h : Nat) :
    mapGet (s.run ops).map v = some h ↔
      ((v, h) ∈ internPairs s ops ∨ mapGet s.map v = some h) := by
  induction ops generalizing s with
  | nil => simp [run, internPairs]
  | cons op rest ih =>
    cases op with
    | intern w =>
      cases hw : mapGet s.map w with
      | some j =>
        rw [show s.run (.intern w :: rest) = (s.applyOp (.intern w)).run rest from rfl, ih,
          internPairs_intern_hit s w rest j hw]
        simp [applyOp, intern_hit s w j hw]
      | none =>
        rw [show s.run (.intern w :: rest) = (s.applyOp (.intern w)).run rest from rfl, ih,
          internPairs_intern_miss s w rest hw]
        have hmap1 : (s.applyOp (.intern w)).map =
            (w, s.vect.length % 2 ^ 32) :: s.map := by
          simp [applyOp, intern_miss s w hw]
        rw [hmap1, mapGet_cons_iff]
        simp only [List.mem_cons, Prod.mk.injEq]
        constructor
        · rintro (hp | (⟨hwv, hlh⟩ | ⟨-, hm⟩))
          · exact Or.inl (Or.inr hp)
          · exact Or.inl (Or.inl ⟨hwv.symm, hlh.symm⟩)
          · exact Or.inr hm
        · rintro ((⟨hvw, hhl⟩ | hp) | hm)
          · exact Or.inr (Or.inl ⟨hvw.symm, hhl.symm⟩)
          · exact Or.inl hp
          · refine Or.inr (Or.inr ⟨?_, hm⟩)
            intro hwe
            rw [hwe, hm] at hw
            cases hw
    | gensym w =>
      rw [show s.run (.gensym w :: rest) = (s.applyOp (.gensym w)).run rest from rfl, ih,
        internPairs]
      rfl

end Interner

end InternerModel

/-! ## A wrap-around trace: `2 ^ 32` entries exhaust the u32 handle space -/

namespace InternerModel

theorem run_replicate_gensym {T : Type} [DecidableEq T] (s : Interner T) (n : Nat) (v : T) :
    s.run (List.replicate n (Op.gensym v)) = ⟨s.map, s.vect ++ List.replicate n v⟩ := by
  induction n generalizing s with
  | zero => simp [Interner.run]
  | succ n ih =>
    rw [List.replicate_succ]
    show (s.applyOp (Op.gensym v)).run (List.replicate n (Op.gensym v)) = _
    rw [ih]
    simp [Interner.applyOp, Interner.gensym, List.replicate_succ]

theorem replicate_pow_succ :
    List.replicate ((2 : Nat) ^ 32) true = true :: List.replicate (2 ^ 32 - 1) true := by
  have h : (2 : Nat) ^ 32 = (2 ^ 32 - 1) + 1 := by omega
  conv_lhs => rw [h]
  rw [List.replicate_succ]

/-- The trace that fills the table to exactly `2 ^ 32` entries: one
deduplicating insert of `true`, then `2 ^ 32 - 1` gensyms of `true`. -/
def wrapTrace : List (Op Bool) :=
  Op.intern true :: List.replicate (2 ^ 32 - 1) (Op.gensym true)

/-- The interner state after `wrapTrace`. -/
def bigState : Interner Bool :=
  Interner.run Interner.new wrapTrace

theorem bigState_eq : bigState = ⟨[(true, 0)], List.replicate (2 ^ 32) true⟩ := by
  have h1 : (Interner.new : Interner Bool).applyOp (Op.intern true) =
      ⟨[(true, 0)], [true]⟩ := by
    simp [Interner.applyOp, Interner.new, Interner.intern, mapGet]
  have h0 : bigState = ((Interner.new : Interner Bool).applyOp (Op.intern true)).run
      (List.replicate (2 ^ 32 - 1) (Op.gensym true)) :=
    Interner.run_cons Interner.new (Op.intern true) (List.replicate (2 ^ 32 - 1) (Op.gensym true))
  rw [h0, h1, run_replicate_gensym, replicate_pow_succ, List.singleton_append]

theorem bigState_len : bigState.vect.length = 2 ^ 32 := by
  rw [bigState_eq]
  exact List.length_replicate (2 ^ 32) true

theorem bigState_get_zero : bigState.get 0 = some true := by
  rw [bigState_eq]
  show (List.replicate (2 ^ 32) true)[0]? = some true
  rw [List.getElem?_replicate]
  simp

theorem bigState_map : bigState.map = [(true, 0)] := by
  rw [bigState_eq]

theorem bigState_mapGet_false : mapGet bigState.map false = none := by
  rw [bigState_map]
  simp [mapGet]

/-- Iterate `gensym "a"` on a string interner. -/
def strGensymIter (s : StrInterner) : Nat → StrInterner
  | 0 => s
  | n + 1 => strGensymIter (s.gensym "a").2 n

theorem strGensymIter_eq (s : StrInterner) (n : Nat) :
    strGensymIter s n = ⟨s.map, s.vect ++ List.replicate n "a"⟩ := by
  induction n generalizing s with
  | zero => simp [strGensymIter]
  | succ n ih =>
    show strGensymIter (s.gensym "a").2 n = _
    rw [ih]
    simp [StrInterner.gensym, List.replicate_succ]

/-- A string interner filled with `2 ^ 32` gensym entries. -/
def bigStr : StrInterner := strGensymIter StrInterner.new (2 ^ 32)

theorem bigStr_eq : bigStr = ⟨[], List.replicate (2 ^ 32) "a"⟩ := by
  show strGensymIter StrInterner.new (2 ^ 32) = _
  rw [strGensymIter_eq]
  rfl

theorem bigStr_len : bigStr.vect.length = 2 ^ 32 := by
  rw [bigStr_eq]
  exact List.length_replicate (2 ^ 32) "a"

theorem bigStr_get_zero : bigStr.get 0 = some "a" := by
  rw [bigStr_eq]
  show (List.replicate (2 ^ 32) "a")[0]? = some "a"
  rw [List.getElem?_replicate]
  simp

end InternerModel

/-! ## Distinctness of gensym and intern handles along wrap-free traces -/

namespace InternerModel

namespace Interner

variable {T : Type} [DecidableEq T]

omit [DecidableEq T] in
/-- Two successive gensyms return distinct handles — consecutive lengths mod
`2 ^ 32` always differ. -/
theorem gensym_gensym_ne (s : Interner T) (v w : T) :
    (s.gensym v).1 ≠ ((s.gensym v).2.gensym w).1 := by
  simp only [gensym, List.length_append, List.length_cons, List.length_nil]
  omega

/-- In a wrap-free trace, the handle returned by an intern step is strictly
below the handle returned by any later gensym step. -/
theorem intern_before_gensym_lt (pre mid post : List (Op T)) (v w : T)
    (hlen : ((Interner.new : Interner T).run
        (pre ++ .intern v :: mid ++ .gensym w :: post)).vect.length ≤ 2 ^ 32) :
    ((Interner.new : Interner T).run pre).retOp (.intern v) <
      ((Interner.new : Interner T).run (pre ++ .intern v :: mid)).retOp (.gensym w) := by
  set s1 := (Interner.new : Interner T).run pre with hs1
  have hmid : (Interner.new : Interner T).run (pre ++ .intern v :: mid) =
      (s1.applyOp (.intern v)).run mid := by
    rw [run_append, run_cons]
  have hfull : (Interner.new : Interner T).run
      (pre ++ .intern v :: mid ++ .gensym w :: post) =
      ((((s1.applyOp (.intern v)).run mid).applyOp (.gensym w)).run post) := by
    rw [run_append, run_cons, run_append, run_cons]
  set s2 := (s1.applyOp (.intern v)).run mid with hs2
  have hs2len : s2.vect.length < 2 ^ 32 := by
    have h1 := len_le_run (s2.applyOp (.gensym w)) post
    rw [hfull] at hlen
    have h2 : (s2.applyOp (.gensym w)).vect.length = s2.vect.length + 1 := by
      simp [applyOp, gensym]
    omega
  have hret2 : s2.retOp (.gensym w) = s2.vect.length := by
    simp only [retOp, gensym]
    omega
  rw [hmid, hret2]
  have hinv : InvRange s1 := invRange_run invRange_new pre
  have hlt := retOp_lt_len hinv (.intern v)
  have hle : (s1.applyOp (.intern v)).vect.length ≤ s2.vect.length :=
    len_le_run (s1.applyOp (.intern v)) mid
  omega

/-- In a wrap-free trace, the handle returned by an intern step differs from
the handle returned by any earlier gensym step. -/
theorem gensym_before_intern_ne (pre mid post : List (Op T)) (v w : T)
    (hlen : ((Interner.new : Interner T).run
        (pre ++ .gensym w :: mid ++ .intern v :: post)).vect.length ≤ 2 ^ 32) :
    ((Interner.new : Interner T).run (pre ++ .gensym w :: mid)).retOp (.intern v) ≠
      ((Interner.new : Interner T).run pre).retOp (.gensym w) := by
  set s1 := (Interner.new : Interner T).run pre with hs1
  have hmid : (Interner.new : Interner T).run (pre ++ .gensym w :: mid) =
      (s1.applyOp (.gensym w)).run mid := by
    rw [run_append, run_cons]
  have hfull : (Interner.new : Interner T).run
      (pre ++ .gensym w :: mid ++ .intern v :: post) =
      ((((s1.applyOp (.gensym w)).run mid).applyOp (.intern v)).run post) := by
    rw [run_append, run_cons, run_append, run_cons]
  set s2 := (s1.applyOp (.gensym w)).run mid with hs2
  have hlen1 : (s1.applyOp (.gensym w)).vect.length = s1.vect.length + 1 := by
    simp [applyOp, gensym]
  have hmid_le : (s1.applyOp (.gensym w)).vect.length ≤ s2.vect.length :=
    len_le_run (s1.applyOp (.gensym w)) mid
  have hpost_le := len_le_run (s2.applyOp (.intern v)) post
  have hstep_le := len_le_applyOp s2 (.intern v)
  rw [hfull] at hlen
  have hs1len : s1.vect.length < 2 ^ 32 := by omega
  have hret1 : s1.retOp (.gensym w) = s1.vect.length := by
    simp only [retOp, gensym]
    omega
  rw [hmid, hret1]
  cases hv : mapGet s2.map v with
  | some j =>
    have hj : s2.retOp (.intern v) = j := by
      simp [retOp, intern_hit s2 v j hv]
    rw [hj]
    have hlow := mapGet_run_lower mid (le_trans (le_trans hstep_le hpost_le) hlen) hv
    rcases hlow with hm | hge
    · have hm' : mapGet s1.map v = some j := by
        simpa [applyOp, gensym] using hm
      have hrange : j < s1.vect.length := invRange_run invRange_new pre v j hm'
      omega
    · omega
  | none =>
    have hmint : (s2.applyOp (.intern v)).vect.length = s2.vect.length + 1 := by
      simp [applyOp, intern_miss s2 v hv]
    have hj : s2.retOp (.intern v) = s2.vect.length % 2 ^ 32 := by
      simp [retOp, intern_miss s2 v hv]
    rw [hj]
    omega

end Interner

end InternerModel

/-! ## Further helpers for the claims -/

namespace InternerModel

namespace Interner

variable {T : Type} [DecidableEq T]

/-- After any `intern v`, the map sends `v` to the returned handle. -/
theorem mapGet_intern_self (s : Interner T) (v : T) :
    mapGet (s.intern v).2.map v = some (s.intern v).1 := by
  cases h : mapGet s.map v with
  | some i =>
    rw [intern_hit s v i h]
    exact h
  | none =>
    simp only [intern_miss s v h]
    rw [mapGet_cons, if_pos rfl]

end Interner

namespace StrInterner

theorem str_intern_hit (s : StrInterner) (v : String) (i : Nat)
    (h : mapGet s.map v = some i) : s.intern v = (i, s) := by
  unfold intern
  rw [h]

theorem str_intern_miss (s : StrInterner) (v : String) (h : mapGet s.map v = none) :
    s.intern v = (s.len % 2 ^ 32, ⟨(v, s.len % 2 ^ 32) :: s.map, s.vect ++ [v]⟩) := by
  unfold intern
  rw [h]

theorem str_mapGet_intern_self (s : StrInterner) (v : String) :
    mapGet (s.intern v).2.map v = some (s.intern v).1 := by
  cases h : mapGet s.map v with
  | some i =>
    rw [str_intern_hit s v i h]
    exact h
  | none =>
    simp only [str_intern_miss s v h]
    rw [Interner.mapGet_cons, if_pos rfl]

theorem gensym_copy_some (s : StrInterner) (idx : Nat) (existing : String)
    (h : s.vect[idx]? = some existing) :
    s.gensym_copy idx = some (s.len % 2 ^ 32, ⟨s.map, s.vect ++ [existing]⟩) := by
  unfold gensym_copy
  rw [h]

theorem gensym_copy_none (s : StrInterner) (idx : Nat) (h : s.vect[idx]? = none) :
    s.gensym_copy idx = none := by
  unfold gensym_copy
  rw [h]

end StrInterner

/-- The handle a gensym returns, written out. -/
theorem retOp_gensym_eq {T : Type} [DecidableEq T] (s : Interner T) (v : T) :
    s.retOp (.gensym v) = s.vect.length % 2 ^ 32 := rfl

/-- The handle minted by a gensym on the full `2 ^ 32`-entry table is 0. -/
theorem bigState_gensym_ret : bigState.retOp (.gensym false) = 0 := by
  rw [retOp_gensym_eq, bigState_len]
  exact Nat.mod_self (2 ^ 32)

/-- The trace's first operation, an intern on the empty table, returned 0. -/
theorem new_intern_ret_zero : (Interner.new : Interner Bool).retOp (.intern true) = 0 := by
  simp [Interner.retOp, Interner.intern, Interner.new, mapGet]

/-- After the colliding gensym, handle 0 still resolves to the first entry. -/
theorem bigState_gensym_get : (bigState.applyOp (.gensym false)).get 0 = some true := by
  have h : 0 < bigState.vect.length := by
    rw [bigState_len]
    omega
  rw [Interner.get_applyOp_stable bigState (.gensym false) 0 h]
  exact bigState_get_zero

end InternerModel

/-! ## The claims -/

namespace InternerModel

/-- C2 (amended): two successive `gensym` calls always return distinct
handles, even for identical values; and as long as the dense store stays
within `2 ^ 32` entries (so the `as u32` handle cast is lossless), no handle
returned by `gensym` equals a handle returned by any `intern` call of the same
epoch, whether the intern happens before or after the gensym. -/
theorem claim_C2 {T : Type} [DecidableEq T] :
    (∀ (s : Interner T) (v w : T), (s.gensym v).1 ≠ ((s.gensym v).2.gensym w).1) ∧
    (∀ (pre mid post : List (Op T)) (v w : T),
      ((Interner.new : Interner T).run
          (pre ++ .intern v :: mid ++ .gensym w :: post)).vect.length ≤ 2 ^ 32 →
      ((Interner.new : Interner T).run pre).retOp (.intern v) ≠
        ((Interner.new : Interner T).run (pre ++ .intern v :: mid)).retOp (.gensym w)) ∧
    (∀ (pre mid post : List (Op T)) (v w : T),
      ((Interner.new : Interner T).run
          (pre ++ .gensym w :: mid ++ .intern v :: post)).vect.length ≤ 2 ^ 32 →
      ((Interner.new : Interner T).run (pre ++ .gensym w :: mid)).retOp (.intern v) ≠
        ((Interner.new : Interner T).run pre).retOp (.gensym w)) :=
  ⟨fun s v w => Interner.gensym_gensym_ne s v w,
   fun pre mid post v w hlen =>
     Nat.ne_of_lt (Interner.intern_before_gensym_lt pre mid post v w hlen),
   fun pre mid post v w hlen =>
     Interner.gensym_before_intern_ne pre mid post v w hlen⟩

/-- Witness for C2 on short concrete traces. -/
theorem claim_C2_witness :
    (((Interner.new : Interner Bool).run []).retOp (.intern true) ≠
      ((Interner.new : Interner Bool).run ([] ++ .intern true :: [])).retOp (.gensym false)) ∧
    (((Interner.new : Interner Bool).run ([] ++ .gensym false :: [])).retOp (.intern true) ≠
      ((Interner.new : Interner Bool).run []).retOp (.gensym false)) :=
  ⟨(claim_C2 (T := Bool)).2.1 [] [] [] true false (by decide),
   (claim_C2 (T := Bool)).2.2 [] [] [] true false (by decide)⟩

/-- C2 counterexample: on `wrapTrace` the table reaches `2 ^ 32` entries, and
the next gensym returns handle 0 — the very handle the trace's first
operation, an intern, returned.  So a gensym handle can collide with an intern
handle of the same epoch. -/
theorem claim_C2_cex :
    bigState = (Interner.new : Interner Bool).run wrapTrace ∧
    (Interner.new : Interner Bool).retOp (.intern true) = 0 ∧
    bigState.retOp (.gensym false) = 0 :=
  ⟨rfl, new_intern_ret_zero, bigState_gensym_ret⟩

/-- C3 (confirmed): the deduplicating insert is idempotent: interning the same
value twice in a row returns the same handle both times, and the second call
leaves the state exactly as the first call left it — for both interners. -/
theorem claim_C3 :
    (∀ {T : Type} [DecidableEq T] (s : Interner T) (v : T),
      ((s.intern v).2.intern v).1 = (s.intern v).1 ∧
      ((s.intern v).2.intern v).2 = (s.intern v).2) ∧
    (∀ (s : StrInterner) (v : String),
      ((s.intern v).2.intern v).1 = (s.intern v).1 ∧
      ((s.intern v).2.intern v).2 = (s.intern v).2) := by
  constructor
  · intro T _inst s v
    rw [Interner.intern_hit (s.intern v).2 v (s.intern v).1
      (Interner.mapGet_intern_self s v)]
    exact ⟨rfl, rfl⟩
  · intro s v
    rw [StrInterner.str_intern_hit (s.intern v).2 v (s.intern v).1
      (StrInterner.str_mapGet_intern_self s v)]
    exact ⟨rfl, rfl⟩

/-- C5 (amended): sequential handle assignment: whenever the dense store holds
fewer than `2 ^ 32` entries, every entry-creating operation (deduplicating
insert of a new value, gensym, gensym_copy) returns a handle equal to the
store's length immediately before the call (in general that length mod
`2 ^ 32`, so handles are reused at `2 ^ 32` entries); `len()` equals the
number of interning events (entry-creating deduplicated inserts plus gensyms)
since creation; the first insert into a fresh interner yields handle 0. -/
theorem claim_C5 :
    (∀ {T : Type} [DecidableEq T] (s : Interner T) (v : T),
      mapGet s.map v = none → s.vect.length < 2 ^ 32 →
      (s.intern v).1 = s.vect.length) ∧
    (∀ {T : Type} [DecidableEq T] (s : Interner T) (v : T),
      s.vect.length < 2 ^ 32 → (s.gensym v).1 = s.vect.length) ∧
    (∀ (s : StrInterner) (v : String),
      mapGet s.map v = none → s.vect.length < 2 ^ 32 →
      (s.intern v).1 = s.vect.length) ∧
    (∀ (s : StrInterner) (v : String),
      s.vect.length < 2 ^ 32 → (s.gensym v).1 = s.vect.length) ∧
    (∀ (s : StrInterner) (idx n : Nat) (s2 : StrInterner), s.vect.length < 2 ^ 32 →
      s.gensym_copy idx = some (n, s2) → n = s.vect.length) ∧
    (∀ {T : Type} [DecidableEq T] (ops : List (Op T)),
      ((Interner.new : Interner T).run ops).vect.length =
        Interner.mintCount Interner.new ops) ∧
    (∀ {T : Type} [DecidableEq T] (v : T),
      ((Interner.new : Interner T).intern v).1 = 0 ∧
      ((Interner.new : Interner T).gensym v).1 = 0) ∧
    (∀ v : String, (StrInterner.new.intern v).1 = 0 ∧ (StrInterner.new.gensym v).1 = 0) := by
  refine ⟨?_, ?_, ?_, ?_, ?_, ?_, ?_, ?_⟩
  · intro T _inst s v h hlt
    rw [Interner.intern_miss s v h]
    exact Nat.mod_eq_of_lt hlt
  · intro T _inst s v hlt
    exact Nat.mod_eq_of_lt hlt
  · intro s v h hlt
    rw [StrInterner.str_intern_miss s v h]
    exact Nat.mod_eq_of_lt hlt
  · intro s v hlt
    exact Nat.mod_eq_of_lt hlt
  · intro s idx n s2 hlt h
    cases hidx : s.vect[idx]? with
    | none =>
      rw [StrInterner.gensym_copy_none s idx hidx] at h
      exact Option.noConfusion h
    | some ex =>
      rw [StrInterner.gensym_copy_some s idx ex hidx] at h
      simp only [Option.some.injEq, Prod.mk.injEq] at h
      rw [← h.1]
      exact Nat.mod_eq_of_lt hlt
  · intro T _inst ops
    rw [Interner.len_run_eq_mintCount]
    simp [Interner.new]
  · intro T _inst v
    exact ⟨rfl, rfl⟩
  · intro v
    exact ⟨rfl, rfl⟩

/-- Witness for C5 at small concrete states. -/
theorem claim_C5_witness :
    ((Interner.new : Interner Bool).intern true).1 = (Interner.new : Interner Bool).vect.length ∧
    ((Interner.new : Interner Bool).gensym true).1 = (Interner.new : Interner Bool).vect.length ∧
    ((⟨[("a", 0)], ["a"]⟩ : StrInterner).intern "b").1 =
      (⟨[("a", 0)], ["a"]⟩ : StrInterner).vect.length ∧
    ((⟨[("a", 0)], ["a"]⟩ : StrInterner).gensym "b").1 =
      (⟨[("a", 0)], ["a"]⟩ : StrInterner).vect.length ∧
    (1 : Nat) = (⟨[("a", 0)], ["a"]⟩ : StrInterner).vect.length :=
  ⟨claim_C5.1 (Interner.new : Interner Bool) true (by decide) (by decide),
   claim_C5.2.1 (Interner.new : Interner Bool) true (by decide),
   claim_C5.2.2.1 (⟨[("a", 0)], ["a"]⟩ : StrInterner) "b" (by decide) (by decide),
   claim_C5.2.2.2.1 (⟨[("a", 0)], ["a"]⟩ : StrInterner) "b" (by decide),
   claim_C5.2.2.2.2.1 (⟨[("a", 0)], ["a"]⟩ : StrInterner) 0 1 (⟨[("a", 0)], ["a", "a"]⟩ : StrInterner)
     (by decide) (by decide)⟩

/-- C5 counterexample: at `2 ^ 32` entries the next gensym returns handle 0
rather than the store's length — handle 0 is reused. -/
theorem claim_C5_cex :
    bigState.retOp (.gensym false) ≠ bigState.vect.length ∧
    bigState.vect.length = 2 ^ 32 := by
  constructor
  · rw [bigState_gensym_ret, bigState_len]
    omega
  · exact bigState_len

/-- C10 (confirmed): every entry-creating operation of either interner
computes the returned handle as the dense store's length reduced mod `2 ^ 32`
(the `as u32` cast), and once the store holds `2 ^ 32` entries the next handle
silently collides with an earlier one: on `wrapTrace` the next gensym returns
handle 0 — the handle the first intern returned — and `get` at that handle
returns the first entry's value. -/
theorem claim_C10 :
    (∀ {T : Type} [DecidableEq T] (s : Interner T) (v : T),
      (s.gensym v).1 = s.vect.length % 2 ^ 32) ∧
    (∀ {T : Type} [DecidableEq T] (s : Interner T) (v : T),
      mapGet s.map v = none → (s.intern v).1 = s.vect.length % 2 ^ 32) ∧
    (∀ (s : StrInterner) (v : String), (s.gensym v).1 = s.vect.length % 2 ^ 32) ∧
    (∀ (s : StrInterner) (v : String), mapGet s.map v = none →
      (s.intern v).1 = s.vect.length % 2 ^ 32) ∧
    (∀ (s : StrInterner) (idx n : Nat) (s2 : StrInterner),
      s.gensym_copy idx = some (n, s2) → n = s.vect.length % 2 ^ 32) ∧
    (bigState.vect.length = 2 ^ 32 ∧
      bigState.retOp (.gensym false) = 0 ∧
      (Interner.new : Interner Bool).retOp (.intern true) = 0 ∧
      (bigState.applyOp (.gensym false)).get (bigState.retOp (.gensym false)) = some true) := by
  refine ⟨?_, ?_, ?_, ?_, ?_, bigState_len, bigState_gensym_ret, new_intern_ret_zero, ?_⟩
  · intro T _inst s v
    rfl
  · intro T _inst s v h
    rw [Interner.intern_miss s v h]
  · intro s v
    rfl
  · intro s v h
    rw [StrInterner.str_intern_miss s v h]
    rfl
  · intro s idx n s2 h
    cases hidx : s.vect[idx]? with
    | none =>
      rw [StrInterner.gensym_copy_none s idx hidx] at h
      exact Option.noConfusion h
    | some ex =>
      rw [StrInterner.gensym_copy_some s idx ex hidx] at h
      simp only [Option.some.injEq, Prod.mk.injEq] at h
      exact h.1.symm
  · rw [bigState_gensym_ret]
    exact bigState_gensym_get

/-- Witness for C10 at small concrete states. -/
theorem claim_C10_witness :
    ((Interner.new : Interner Bool).intern true).1 =
      (Interner.new : Interner Bool).vect.length % 2 ^ 32 ∧
    (StrInterner.new.intern "a").1 = StrInterner.new.vect.length % 2 ^ 32 ∧
    (1 : Nat) = (⟨[], ["a"]⟩ : StrInterner).vect.length % 2 ^ 32 :=
  ⟨claim_C10.2.1 (Interner.new : Interner Bool) true (by decide),
   claim_C10.2.2.2.1 StrInterner.new "a" (by decide),
   claim_C10.2.2.2.2.1 (⟨[], ["a"]⟩ : StrInterner) 0 1 (⟨[], ["a", "a"]⟩ : StrInterner)
     (by decide)⟩

end InternerModel

namespace InternerModel

/-- C1 (amended): round trip: along any trace in which the dense store stays
within `2 ^ 32` entries, `get h` on the final state returns (a value equal to)
the value passed to the call that returned `h`, for every `h` returned by an
`intern` or `gensym` step of the trace. -/
theorem claim_C1 {T : Type} [DecidableEq T] (pre post : List (Op T)) (op : Op T)
    (hlen : ((Interner.new : Interner T).run (pre ++ op :: post)).vect.length ≤ 2 ^ 32) :
    ((Interner.new : Interner T).run (pre ++ op :: post)).get
      (((Interner.new : Interner T).run pre).retOp op) = some op.val := by
  set s1 := (Interner.new : Interner T).run pre with hs1
  have hsplit : (Interner.new : Interner T).run (pre ++ op :: post) =
      (s1.applyOp op).run post := by
    rw [Interner.run_append, Interner.run_cons]
  rw [hsplit] at hlen ⊢
  have h1 := Interner.len_le_applyOp s1 op
  have h2 : (s1.applyOp op).vect.length ≤ ((s1.applyOp op).run post).vect.length :=
    Interner.len_le_run (s1.applyOp op) post
  have hpre : s1.vect.length ≤ 2 ^ 32 := by omega
  have hwf : Interner.Wf s1 := Interner.wf_run Interner.wf_new pre hpre
  cases op with
  | intern v =>
    cases hv : mapGet s1.map v with
    | some i =>
      have hret : s1.retOp (.intern v) = i := by
        simp [Interner.retOp, Interner.intern_hit s1 v i hv]
      have happ : s1.applyOp (.intern v) = s1 := by
        simp [Interner.applyOp, Interner.intern_hit s1 v i hv]
      have hvec := hwf v i hv
      have hlt : i < s1.vect.length := (List.getElem?_eq_some.mp hvec).1
      rw [hret, happ, Interner.get_run_stable s1 post i hlt]
      exact hvec
    | none =>
      have hret : s1.retOp (.intern v) = s1.vect.length % 2 ^ 32 := by
        simp [Interner.retOp, Interner.intern_miss s1 v hv]
      have happ : (s1.applyOp (.intern v)).vect = s1.vect ++ [v] := by
        simp [Interner.applyOp, Interner.intern_miss s1 v hv]
      have hstep : (s1.applyOp (.intern v)).vect.length = s1.vect.length + 1 := by
        rw [happ]
        simp
      have hslen : s1.vect.length < 2 ^ 32 := by omega
      have hget : (s1.applyOp (.intern v)).get s1.vect.length = some v := by
        show (s1.applyOp (.intern v)).vect[s1.vect.length]? = some v
        rw [happ]
        exact List.getElem?_concat_length s1.vect v
      have hlt2 : s1.vect.length < (s1.applyOp (.intern v)).vect.length := by omega
      rw [hret, Nat.mod_eq_of_lt hslen,
        Interner.get_run_stable (s1.applyOp (.intern v)) post s1.vect.length hlt2]
      exact hget
  | gensym v =>
    have hret : s1.retOp (.gensym v) = s1.vect.length % 2 ^ 32 := rfl
    have happ : (s1.applyOp (.gensym v)).vect = s1.vect ++ [v] := rfl
    have hstep : (s1.applyOp (.gensym v)).vect.length = s1.vect.length + 1 := by
      rw [happ]
      simp
    have hslen : s1.vect.length < 2 ^ 32 := by omega
    have hget : (s1.applyOp (.gensym v)).get s1.vect.length = some v := by
      show (s1.applyOp (.gensym v)).vect[s1.vect.length]? = some v
      rw [happ]
      exact List.getElem?_concat_length s1.vect v
    have hlt2 : s1.vect.length < (s1.applyOp (.gensym v)).vect.length := by omega
    rw [hret, Nat.mod_eq_of_lt hslen,
      Interner.get_run_stable (s1.applyOp (.gensym v)) post s1.vect.length hlt2]
    exact hget

/-- Witness for C1 on a one-operation trace. -/
theorem claim_C1_witness :
    ((Interner.new : Interner Bool).run ([] ++ .intern true :: [])).get
      (((Interner.new : Interner Bool).run []).retOp (.intern true)) =
      some (Op.intern (T := Bool) true).val :=
  claim_C1 [] [] (.intern true) (by decide)

/-- C1 counterexample: after `wrapTrace` fills the table to `2 ^ 32` entries,
a gensym of `false` returns handle 0, and `get 0` on the resulting state
returns `true` — not the value passed to that gensym. -/
theorem claim_C1_cex :
    ¬ (((Interner.new : Interner Bool).run (wrapTrace ++ [.gensym false])).get
        (((Interner.new : Interner Bool).run wrapTrace).retOp (.gensym false)) =
      some (Op.gensym (T := Bool) false).val) := by
  have hfold : (Interner.new : Interner Bool).run wrapTrace = bigState := rfl
  have hsplit : (Interner.new : Interner Bool).run (wrapTrace ++ [.gensym false]) =
      bigState.applyOp (.gensym false) := by
    rw [Interner.run_append, hfold, Interner.run_cons, Interner.run_nil]
  rw [hsplit, hfold, bigState_gensym_ret, bigState_gensym_get]
  intro hcontra
  exact Bool.noConfusion (Option.some.inj hcontra)

/-- C6 (confirmed): `get h` is the fatal error (`none`) exactly when `h` is
not a position of the dense store — e.g. handle 13 on an empty table, or any
handle right after a clear — and `get` succeeds on every handle the interner
actually returned during the current epoch. -/
theorem claim_C6 :
    (∀ {T : Type} [DecidableEq T] (s : Interner T) (h : Nat),
      s.get h = none ↔ s.vect.length ≤ h) ∧
    (∀ (s : StrInterner) (h : Nat), s.get h = none ↔ s.vect.length ≤ h) ∧
    ((Interner.new : Interner Bool).get 13 = none) ∧
    (∀ {T : Type} [DecidableEq T] (s : Interner T) (h : Nat), s.clear.get h = none) ∧
    (∀ (s : StrInterner) (h : Nat), s.clear.get h = none) ∧
    (∀ {T : Type} [DecidableEq T] (pre post : List (Op T)) (op : Op T),
      ((Interner.new : Interner T).run (pre ++ op :: post)).get
        (((Interner.new : Interner T).run pre).retOp op) ≠ none) := by
  refine ⟨?_, ?_, rfl, ?_, ?_, ?_⟩
  · intro T _ s h
    exact List.getElem?_eq_none_iff
  · intro s h
    exact List.getElem?_eq_none_iff
  · intro T _ s h
    simp [Interner.clear, Interner.get, Interner.new]
  · intro s h
    simp [StrInterner.clear, StrInterner.get, StrInterner.new]
  · intro T _ pre post op
    set s1 := (Interner.new : Interner T).run pre with hs1
    have hinv : Interner.InvRange s1 := Interner.invRange_run Interner.invRange_new pre
    have hlt := Interner.retOp_lt_len hinv op
    have hsplit : (Interner.new : Interner T).run (pre ++ op :: post) =
        (s1.applyOp op).run post := by
      rw [Interner.run_append, Interner.run_cons]
    rw [hsplit]
    have hle : (s1.applyOp op).vect.length ≤ ((s1.applyOp op).run post).vect.length :=
      Interner.len_le_run (s1.applyOp op) post
    intro hcontra
    have := List.getElem?_eq_none_iff.mp hcontra
    omega

/-- C9 (confirmed): write-once frame property: no intern, gensym or
gensym_copy call changes the value stored at an already-occupied position —
`get h` is unchanged by the call for every `h` valid before it. -/
theorem claim_C9 :
    (∀ {T : Type} [DecidableEq T] (s : Interner T) (op : Op T) (h : Nat),
      h < s.vect.length → (s.applyOp op).get h = s.get h) ∧
    (∀ (s : StrInterner) (v : String) (h : Nat),
      h < s.vect.length → (s.intern v).2.get h = s.get h) ∧
    (∀ (s : StrInterner) (v : String) (h : Nat),
      h < s.vect.length → (s.gensym v).2.get h = s.get h) ∧
    (∀ (s : StrInterner) (idx n : Nat) (s2 : StrInterner) (h : Nat),
      h < s.vect.length → s.gensym_copy idx = some (n, s2) → s2.get h = s.get h) := by
  refine ⟨?_, ?_, ?_, ?_⟩
  · intro T _ s op h hlt
    exact Interner.get_applyOp_stable s op h hlt
  · intro s v h hlt
    cases hv : mapGet s.map v with
    | some i => rw [StrInterner.str_intern_hit s v i hv]
    | none =>
      rw [StrInterner.str_intern_miss s v hv]
      show (s.vect ++ [v])[h]? = s.vect[h]?
      exact List.getElem?_append_left hlt
  · intro s v h hlt
    show (s.vect ++ [v])[h]? = s.vect[h]?
    exact List.getElem?_append_left hlt
  · intro s idx n s2 h hlt hcopy
    cases hidx : s.vect[idx]? with
    | none =>
      rw [StrInterner.gensym_copy_none s idx hidx] at hcopy
      exact Option.noConfusion hcopy
    | some ex =>
      rw [StrInterner.gensym_copy_some s idx ex hidx] at hcopy
      simp only [Option.some.injEq, Prod.mk.injEq] at hcopy
      rw [← hcopy.2]
      show (s.vect ++ [ex])[h]? = s.vect[h]?
      exact List.getElem?_append_left hlt

/-- Witness for C9 at small concrete states. -/
theorem claim_C9_witness :
    ((⟨[], [true]⟩ : Interner Bool).applyOp (.gensym false)).get 0 =
      (⟨[], [true]⟩ : Interner Bool).get 0 ∧
    ((⟨[], ["a"]⟩ : StrInterner).intern "b").2.get 0 = (⟨[], ["a"]⟩ : StrInterner).get 0 ∧
    ((⟨[], ["a"]⟩ : StrInterner).gensym "b").2.get 0 = (⟨[], ["a"]⟩ : StrInterner).get 0 ∧
    (⟨[], ["a", "a"]⟩ : StrInterner).get 0 = (⟨[], ["a"]⟩ : StrInterner).get 0 :=
  ⟨claim_C9.1 (⟨[], [true]⟩ : Interner Bool) (.gensym false) 0 (by decide),
   claim_C9.2.1 (⟨[], ["a"]⟩ : StrInterner) "b" 0 (by decide),
   claim_C9.2.2.1 (⟨[], ["a"]⟩ : StrInterner) "b" 0 (by decide),
   claim_C9.2.2.2 (⟨[], ["a"]⟩ : StrInterner) 0 1 (⟨[], ["a", "a"]⟩ : StrInterner) 0
     (by decide) (by decide)⟩

end InternerModel

namespace InternerModel

/-- `prefill` is exactly a run of deduplicating inserts from the empty
interner. -/
theorem foldl_intern_eq_run {T : Type} [DecidableEq T] (init : List T) (s : Interner T) :
    init.foldl (fun acc v => (acc.intern v).2) s = s.run (init.map Op.intern) := by
  induction init generalizing s with
  | nil => rfl
  | cons v rest ih => exact ih ((s.intern v).2)

/-- C4 (amended): the dedup map contains exactly the pairs minted by the
deduplicating insert path (`find` never surfaces gensym-only entries); in
every reachable state with at most `2 ^ 32` entries, each map entry `(v, N)`
has `v` stored at position `N` of the dense store; gensym leaves the map (and
hence `find`) untouched; and in a wrap-free trace, interning a value that was
previously only gensym'd mints a new entry with a handle different from the
gensym's. -/
theorem claim_C4 :
    (∀ {T : Type} [DecidableEq T] (ops : List (Op T)) (v : T) (h : Nat),
      ((Interner.new : Interner T).run ops).find v = some h ↔
        (v, h) ∈ Interner.internPairs Interner.new ops) ∧
    (∀ {T : Type} [DecidableEq T] (ops : List (Op T)) (v : T) (h : Nat),
      ((Interner.new : Interner T).run ops).vect.length ≤ 2 ^ 32 →
      ((Interner.new : Interner T).run ops).find v = some h →
      ((Interner.new : Interner T).run ops).vect[h]? = some v) ∧
    (∀ {T : Type} [DecidableEq T] (s : Interner T) (v w : T),
      (s.gensym v).2.find w = s.find w) ∧
    (∀ {T : Type} [DecidableEq T] (pre mid post : List (Op T)) (v : T),
      ((Interner.new : Interner T).run
          (pre ++ .gensym v :: mid ++ .intern v :: post)).vect.length ≤ 2 ^ 32 →
      ((Interner.new : Interner T).run (pre ++ .gensym v :: mid)).retOp (.intern v) ≠
        ((Interner.new : Interner T).run pre).retOp (.gensym v)) ∧
    (∀ {T : Type} [DecidableEq T] (s : Interner T) (v : T), mapGet s.map v = none →
      ((s.gensym v).2.intern v).1 = (s.gensym v).2.vect.length % 2 ^ 32 ∧
      ((s.gensym v).2.intern v).2.vect.length = (s.gensym v).2.vect.length + 1) := by
  refine ⟨?_, ?_, ?_, ?_, ?_⟩
  · intro T _ ops v h
    have h1 := Interner.mapGet_run_iff_internPairs (Interner.new : Interner T) ops v h
    have h2 : mapGet (Interner.new : Interner T).map v = none := rfl
    rw [Interner.find_eq, h1, h2]
    simp
  · intro T _ ops v h hlen hfind
    exact Interner.wf_run Interner.wf_new ops hlen v h hfind
  · intro T _ s v w
    rfl
  · intro T _ pre mid post v hlen
    exact Interner.gensym_before_intern_ne pre mid post v v hlen
  · intro T _ s v h
    have hmap : mapGet (s.gensym v).2.map v = none := h
    rw [Interner.intern_miss (s.gensym v).2 v hmap]
    exact ⟨rfl, by simp⟩

/-- Witness for C4 at small concrete inputs. -/
theorem claim_C4_witness :
    (((Interner.new : Interner Bool).run [.intern true]).vect[0]? = some true) ∧
    (((Interner.new : Interner Bool).run ([] ++ .gensym true :: [])).retOp (.intern true) ≠
      ((Interner.new : Interner Bool).run []).retOp (.gensym true)) ∧
    (((Interner.new : Interner Bool).gensym true).2.intern true).1 =
      ((Interner.new : Interner Bool).gensym true).2.vect.length % 2 ^ 32 :=
  ⟨claim_C4.2.1 [.intern true] true 0 (by decide) (by decide),
   claim_C4.2.2.2.1 [] [] [] true (by decide),
   (claim_C4.2.2.2.2 (Interner.new : Interner Bool) true (by decide)).1⟩

/-- C4 counterexample: after `wrapTrace` (a reachable state with `2 ^ 32`
entries), interning the new value `false` records the map entry
`(false, 0)` — but position 0 of the dense store holds `true`: the map and
the store fall out of lockstep. -/
theorem claim_C4_cex :
    (Interner.new : Interner Bool).run (wrapTrace ++ [.intern false]) =
      (bigState.intern false).2 ∧
    (bigState.intern false).2.find false = some 0 ∧
    (bigState.intern false).2.vect[0]? = some true := by
  have hmiss := Interner.intern_miss bigState false bigState_mapGet_false
  have happ : ∀ (s : Interner Bool) (v : Bool), s.applyOp (.intern v) = (s.intern v).2 :=
    fun s v => rfl
  have hfold : (Interner.new : Interner Bool).run wrapTrace = bigState := rfl
  refine ⟨?_, ?_, ?_⟩
  · rw [Interner.run_append, Interner.run_cons, Interner.run_nil, happ, hfold]
  · rw [Interner.find_eq, hmiss]
    show mapGet ((false, bigState.vect.length % 2 ^ 32) :: bigState.map) false = some 0
    rw [Interner.mapGet_cons, if_pos rfl, bigState_len, Nat.mod_self]
  · rw [hmiss]
    show (bigState.vect ++ [false])[0]? = some true
    have h0 : 0 < bigState.vect.length := by
      rw [bigState_len]
      omega
    rw [List.getElem?_append_left h0]
    exact bigState_get_zero

/-- C7 (confirmed): `prefill` deduplicating-inserts the initial values in list
order: distinct values land at positions 0, 1, 2, …, a later `intern` of an
initial value returns its position, and duplicates among the initial values
collapse to the handle assigned at the value's first occurrence. -/
theorem claim_C7 {T : Type} [DecidableEq T] :
    (∀ (init : List T),
      Interner.prefill init = Interner.run Interner.new (init.map Op.intern)) ∧
    (∀ a b c : T, a ≠ b → a ≠ c → b ≠ c →
      (Interner.prefill [a, b, c]).get 0 = some a ∧
      (Interner.prefill [a, b, c]).get 1 = some b ∧
      (Interner.prefill [a, b, c]).get 2 = some c ∧
      ((Interner.prefill [a, b, c]).intern b).1 = 1) ∧
    (∀ (pre post : List T) (v : T),
      ((Interner.prefill (pre ++ v :: post)).intern v).1 =
        ((Interner.prefill pre).intern v).1) ∧
    ((StrInterner.prefill ["a", "b", "c"]).get 0 = some "a" ∧
     (StrInterner.prefill ["a", "b", "c"]).get 1 = some "b" ∧
     (StrInterner.prefill ["a", "b", "c"]).get 2 = some "c" ∧
     ((StrInterner.prefill ["a", "b", "c"]).intern "b").1 = 1) := by
  refine ⟨?_, ?_, ?_, by decide⟩
  · intro init
    exact foldl_intern_eq_run init Interner.new
  · intro a b c hab hac hbc
    refine ⟨?_, ?_, ?_, ?_⟩ <;>
      simp [Interner.prefill, Interner.intern, Interner.get, Interner.new, mapGet,
        hab, hac, hbc, Ne.symm hab, Ne.symm hac, Ne.symm hbc]
  · intro pre post v
    have hpre : Interner.prefill (pre ++ v :: post) =
        (((Interner.prefill pre).intern v).2.run (post.map Op.intern)) := by
      rw [show Interner.prefill (pre ++ v :: post) =
            (pre ++ v :: post).foldl (fun acc w => (acc.intern w).2) Interner.new from rfl,
        foldl_intern_eq_run, List.map_append, List.map_cons, Interner.run_append,
        Interner.run_cons, Interner.applyOp_intern,
        show Interner.prefill pre = pre.foldl (fun acc w => (acc.intern w).2) Interner.new
          from rfl,
        foldl_intern_eq_run]
    have hself := Interner.mapGet_intern_self (Interner.prefill pre) v
    have hpersist := Interner.mapGet_run_of_some (post.map Op.intern) hself
    rw [hpre, Interner.intern_hit _ v _ hpersist]

/-- Witness for C7 at three distinct naturals. -/
theorem claim_C7_witness :
    (Interner.prefill [0, 1, 2] : Interner Nat).get 0 = some 0 ∧
    (Interner.prefill [0, 1, 2] : Interner Nat).get 1 = some 1 ∧
    (Interner.prefill [0, 1, 2] : Interner Nat).get 2 = some 2 ∧
    ((Interner.prefill [0, 1, 2] : Interner Nat).intern 1).1 = 1 :=
  (claim_C7 (T := Nat)).2.1 0 1 2 (by decide) (by decide) (by decide)

end InternerModel

namespace InternerModel

/-- C8 (amended): for every valid handle `h` of a string interner whose store
holds fewer than `2 ^ 32` entries (and whose map handles are in range, as in
every reachable state), `gensym_copy h` succeeds and returns the store's
length as the new handle — hence a handle different from `h` and from every
previously returned handle, all of which are below the length — whose stored
text equals `get h`, while the dedup map is untouched and `find` can never
return the new handle. -/
theorem claim_C8 (s : StrInterner) (h : Nat)
    (hvalid : h < s.vect.length) (hbound : s.vect.length < 2 ^ 32)
    (hrange : ∀ v i, mapGet s.map v = some i → i < s.vect.length) :
    ∃ n s2, s.gensym_copy h = some (n, s2) ∧
      n = s.vect.length ∧
      h ≠ n ∧
      s2.get n = s.get h ∧
      (∀ w, s2.find w = s.find w) ∧
      (∀ w, s.find w ≠ some n) := by
  cases hex : s.vect[h]? with
  | none =>
    exfalso
    have := List.getElem?_eq_none_iff.mp hex
    omega
  | some ex =>
    refine ⟨s.vect.length, ⟨s.map, s.vect ++ [ex]⟩, ?_, rfl, ?_, ?_, ?_, ?_⟩
    · rw [StrInterner.gensym_copy_some s h ex hex]
      have hmod : s.len % 2 ^ 32 = s.vect.length := Nat.mod_eq_of_lt hbound
      rw [hmod]
    · omega
    · show (s.vect ++ [ex])[s.vect.length]? = s.get h
      rw [List.getElem?_concat_length, StrInterner.get, hex]
    · intro w
      rfl
    · intro w hw
      have := hrange w s.vect.length hw
      omega

/-- Witness for C8 on a two-entry string interner. -/
theorem claim_C8_witness :
    ∃ n s2, (⟨[("a", 0)], ["a", "b"]⟩ : StrInterner).gensym_copy 1 = some (n, s2) ∧
      n = (⟨[("a", 0)], ["a", "b"]⟩ : StrInterner).vect.length ∧
      (1 : Nat) ≠ n ∧
      s2.get n = (⟨[("a", 0)], ["a", "b"]⟩ : StrInterner).get 1 ∧
      (∀ w, s2.find w = (⟨[("a", 0)], ["a", "b"]⟩ : StrInterner).find w) ∧
      (∀ w, (⟨[("a", 0)], ["a", "b"]⟩ : StrInterner).find w ≠ some n) :=
  claim_C8 (⟨[("a", 0)], ["a", "b"]⟩ : StrInterner) 1 (by decide) (by decide)
    (by
      intro v i hv
      rcases Interner.mapGet_cons_some hv with ⟨-, rfl⟩ | ⟨-, hv2⟩
      · decide
      · exact Option.noConfusion hv2)

/-- C8 counterexample: on a string interner holding `2 ^ 32` gensym entries,
handle 0 is valid, yet `gensym_copy 0` returns handle 0 — equal to its
argument rather than distinct from it and from all previously returned
handles. -/
theorem claim_C8_cex :
    bigStr.vect.length = 2 ^ 32 ∧
    bigStr.gensym_copy 0 = some (0, ⟨bigStr.map, bigStr.vect ++ ["a"]⟩) := by
  refine ⟨bigStr_len, ?_⟩
  rw [StrInterner.gensym_copy_some bigStr 0 "a" bigStr_get_zero]
  have hl : bigStr.len = 2 ^ 32 := bigStr_len
  rw [hl, Nat.mod_self]

end InternerModel
